import Mathlib

/-!
Verification of the `barelang-lexer` crate (`src/barelang-lexer/src/lib.rs`).

The lexer is embedded shallowly: Rust string slices become `List Char`,
byte offsets are tracked with `Char.utf8Size`, and the iterator's
`next` method becomes a pure state-passing function `Lexer.next`.
-/

namespace Barelang

/-- Token kinds from the source enum `TokenKind`: `Task`, `Ident`, `LeftBrace`, `RightBrace`. -/
inductive TokenKind where
  | task
  | ident
  | leftBrace
  | rightBrace
deriving DecidableEq, Repr

/-- Tokens from the source struct `Token`: `origin` is the matched text (a slice of the
input, modelled as a list of characters), `offset` its byte offset. -/
structure Token where
  origin : List Char
  offset : Nat
  kind : TokenKind
deriving DecidableEq, Repr

/-- Lexical errors, the `SingleTokenError` as constructed in `Lexer::next`: the whole source,
the offending character, and the span (byte offset and byte length)
taken from `SourceSpan::from(self.byte - c.len_utf8()..self.byte)`. -/
structure LexError where
  src : List Char
  token : Char
  errOffset : Nat
  errLen : Nat
deriving DecidableEq, Repr

/-- Lexer state from the source: `whole` the entire input, `rest` the
unconsumed suffix, `byte` the byte offset of `rest` within `whole`. -/
structure Lexer where
  whole : List Char
  rest : List Char
  byte : Nat
deriving DecidableEq, Repr

/-- Constructor `Lexer::new`. -/
def Lexer.new (input : List Char) : Lexer :=
  { whole := input, rest := input, byte := 0 }

/-- Rust pattern `'a'..='z' | 'A'..='Z' | '_'` — identifier start.
Range patterns on `char` compare Unicode scalar values, here `c.toNat`. -/
def isIdentStart (c : Char) : Bool :=
  (decide (0x61 ≤ c.toNat) && decide (c.toNat ≤ 0x7A)) ||
  (decide (0x41 ≤ c.toNat) && decide (c.toNat ≤ 0x5A)) ||
  c.toNat == 0x5F

/-- Rust pattern `'a'..='z' | 'A'..='Z' | '_' | '0'..='9'` — identifier
continuation, used in `first_char_that_is_not_an_ident`. -/
def isIdentCont (c : Char) : Bool :=
  (decide (0x61 ≤ c.toNat) && decide (c.toNat ≤ 0x7A)) ||
  (decide (0x41 ≤ c.toNat) && decide (c.toNat ≤ 0x5A)) ||
  c.toNat == 0x5F ||
  (decide (0x30 ≤ c.toNat) && decide (c.toNat ≤ 0x39))

/-- Rust `char::is_whitespace`: the Unicode `White_Space` property
(U+0009–U+000D, U+0020, U+0085, U+00A0, U+1680, U+2000–U+200A,
U+2028, U+2029, U+202F, U+205F, U+3000). -/
def rustIsWhitespace (c : Char) : Bool :=
  (decide (0x9 ≤ c.toNat) && decide (c.toNat ≤ 0xD)) ||
  c.toNat == 0x20 ||
  c.toNat == 0x85 ||
  c.toNat == 0xA0 ||
  c.toNat == 0x1680 ||
  (decide (0x2000 ≤ c.toNat) && decide (c.toNat ≤ 0x200A)) ||
  c.toNat == 0x2028 ||
  c.toNat == 0x2029 ||
  c.toNat == 0x202F ||
  c.toNat == 0x205F ||
  c.toNat == 0x3000

/-- Total UTF-8 byte length of a character list (Rust `str::len`). -/
def utf8Len : List Char → Nat
  | [] => 0
  | c :: cs => c.utf8Size + utf8Len cs

/-- One call of the body of `Lexer::next` (the `loop`), with the list of
unconsumed characters and the byte cursor passed explicitly.  Returns the
produced item (`none` for end of input) together with the new `rest` and
`byte`.  Mirrors the source line by line: the cursor is advanced past `c`
first (`self.rest = chars.as_str(); self.byte += c.len_utf8();`), then the
character is dispatched in the source's match order: `{`, `}`,
identifier start, whitespace (`continue`), error. -/
def lexStep (whole : List Char) : List Char → Nat → Option (Except LexError Token) × List Char × Nat
  | [], byte => (none, [], byte)
  | c :: cs, byte =>
    let cAt := byte
    let byte1 := byte + c.utf8Size
    if c = '{' then
      (some (.ok { origin := [c], offset := cAt, kind := .leftBrace }), cs, byte1)
    else if c = '}' then
      (some (.ok { origin := [c], offset := cAt, kind := .rightBrace }), cs, byte1)
    else if isIdentStart c then
      -- `c_onwards[..first_char_that_is_not_an_ident]`
      let literal := List.takeWhile isIdentCont (c :: cs)
      -- `self.byte += bytes_unaccounted_for` where
      -- `bytes_unaccounted_for = literal.len() - c.len_utf8()`;
      -- dropping those bytes from `self.rest` drops `literal`'s tail.
      let bytesUnaccounted := utf8Len literal - c.utf8Size
      (some (.ok { origin := literal, offset := cAt,
                   kind := if literal = "task".toList then .task else .ident }),
       cs.drop (literal.length - 1), byte1 + bytesUnaccounted)
    else if rustIsWhitespace c then
      lexStep whole cs byte1
    else
      (some (.error { src := whole, token := c,
                      errOffset := byte1 - c.utf8Size,
                      errLen := byte1 - (byte1 - c.utf8Size) }), cs, byte1)

/-- The `Iterator::next` implementation for the lexer: run one step and repack the state. -/
def Lexer.next (l : Lexer) : Option (Except LexError Token) × Lexer :=
  match lexStep l.whole l.rest l.byte with
  | (r, rest, byte) => (r, { whole := l.whole, rest := rest, byte := byte })

/-- Iterate `Lexer.next` with explicit fuel (each yielded item consumes at
least one character, so `l.rest.length` fuel always suffices). -/
def lexItemsFuel : Nat → Lexer → List (Except LexError Token)
  | 0, _ => []
  | n + 1, l =>
    match Lexer.next l with
    | (none, _) => []
    | (some r, l2) => r :: lexItemsFuel n l2

/-- All items yielded by exhausting the iterator over state `l`
(collecting the lexer as an iterator). -/
def lexItems (l : Lexer) : List (Except LexError Token) :=
  lexItemsFuel l.rest.length l

/-- State invariant from the spec: `whole[cursor..] = remaining`,
stated as: some prefix of byte length `byte` followed by `rest` is `whole`. -/
def LexInv (l : Lexer) : Prop :=
  ∃ pre, l.whole = pre ++ l.rest ∧ utf8Len pre = l.byte

/-- ASCII-alphanumeric, as the property-test generator filters characters
(`is_alphanumeric() && is_ascii()`): `[0-9A-Za-z]`. -/
def isAsciiAlnum (c : Char) : Bool :=
  (decide (0x30 ≤ c.toNat) && decide (c.toNat ≤ 0x39)) ||
  (decide (0x41 ≤ c.toNat) && decide (c.toNat ≤ 0x5A)) ||
  (decide (0x61 ≤ c.toNat) && decide (c.toNat ≤ 0x7A))

/-- ASCII decimal digit, `'0'..='9'`. -/
def isDigitChar (c : Char) : Bool :=
  decide (0x30 ≤ c.toNat) && decide (c.toNat ≤ 0x39)

deriving instance DecidableEq for Except

/-! ### Character-class lemmas -/

theorem identStart_identCont {c : Char} (h : isIdentStart c = true) :
    isIdentCont c = true := by
  simp only [isIdentStart, isIdentCont, Bool.or_eq_true, Bool.and_eq_true,
    decide_eq_true_eq, beq_iff_eq] at h ⊢
  omega

theorem ws_not_identStart {c : Char} (h : rustIsWhitespace c = true) :
    isIdentStart c = false := by
  simp only [isIdentStart, rustIsWhitespace, Bool.or_eq_true, Bool.and_eq_true,
    decide_eq_true_eq, beq_iff_eq] at h ⊢
  simp only [Bool.or_eq_false_iff, Bool.and_eq_false_iff, decide_eq_false_iff_not,
    beq_eq_false_iff_ne, ne_eq]
  omega

theorem ws_ne_lbrace {c : Char} (h : rustIsWhitespace c = true) : c ≠ '{' := by
  intro heq; subst heq; exact absurd h (by decide)

theorem ws_ne_rbrace {c : Char} (h : rustIsWhitespace c = true) : c ≠ '}' := by
  intro heq; subst heq; exact absurd h (by decide)

theorem identStart_ne_lbrace {c : Char} (h : isIdentStart c = true) : c ≠ '{' := by
  intro heq; subst heq; exact absurd h (by decide)

theorem identStart_ne_rbrace {c : Char} (h : isIdentStart c = true) : c ≠ '}' := by
  intro heq; subst heq; exact absurd h (by decide)

theorem alnum_identCont {c : Char} (h : isAsciiAlnum c = true) :
    isIdentCont c = true := by
  simp only [isAsciiAlnum, isIdentCont, Bool.or_eq_true, Bool.and_eq_true,
    decide_eq_true_eq, beq_iff_eq] at h ⊢
  omega

theorem alnum_not_digit_identStart {c : Char} (h : isAsciiAlnum c = true)
    (hd : isDigitChar c = false) : isIdentStart c = true := by
  simp only [isAsciiAlnum, isDigitChar, isIdentStart, Bool.or_eq_true, Bool.and_eq_true,
    Bool.and_eq_false_iff, decide_eq_true_eq, decide_eq_false_iff_not,
    beq_iff_eq] at h hd ⊢
  omega

theorem utf8Size_one_of_ascii {c : Char} (h : c.toNat ≤ 0x7F) : c.utf8Size = 1 := by
  simp only [Char.utf8Size]
  rw [if_pos]
  exact h

theorem alnum_utf8Size {c : Char} (h : isAsciiAlnum c = true) : c.utf8Size = 1 := by
  apply utf8Size_one_of_ascii
  simp only [isAsciiAlnum, Bool.or_eq_true, Bool.and_eq_true, decide_eq_true_eq] at h
  omega

/-! ### List and byte-length lemmas -/

theorem utf8Len_append (a b : List Char) :
    utf8Len (a ++ b) = utf8Len a + utf8Len b := by
  induction a with
  | nil => simp [utf8Len]
  | cons c cs ih => simp [utf8Len, ih]; omega

theorem length_le_utf8Len (l : List Char) : l.length ≤ utf8Len l := by
  induction l with
  | nil => simp [utf8Len]
  | cons c cs ih =>
    have := Char.utf8Size_pos c
    simp [utf8Len]
    omega

theorem utf8Len_drop_le (k : Nat) (l : List Char) :
    utf8Len (l.drop k) ≤ utf8Len l := by
  induction l generalizing k with
  | nil => simp
  | cons c cs ih =>
    cases k with
    | zero => exact Nat.le_refl _
    | succ k =>
      calc utf8Len ((c :: cs).drop (k + 1)) = utf8Len (cs.drop k) := rfl
        _ ≤ utf8Len cs := ih k
        _ ≤ utf8Len (c :: cs) := Nat.le_add_left _ _

theorem takeWhile_append_of_all {p : Char → Bool} {t : List Char} (r : List Char)
    (h : ∀ x ∈ t, p x = true) : (t ++ r).takeWhile p = t ++ r.takeWhile p := by
  induction t with
  | nil => simp
  | cons a t ih =>
    have ha : p a = true := h a (by simp)
    simp only [List.cons_append, List.takeWhile_cons, ha, if_true]
    rw [ih (fun x hx => h x (by simp [hx]))]

theorem dropWhile_append_of_all {p : Char → Bool} {t : List Char} (r : List Char)
    (h : ∀ x ∈ t, p x = true) : (t ++ r).dropWhile p = r.dropWhile p := by
  induction t with
  | nil => simp
  | cons a t ih =>
    have ha : p a = true := h a (by simp)
    simp only [List.cons_append, List.dropWhile_cons, ha, if_true]
    exact ih (fun x hx => h x (by simp [hx]))

theorem drop_length_takeWhile (p : Char → Bool) (l : List Char) :
    l.drop (l.takeWhile p).length = l.dropWhile p := by
  induction l with
  | nil => rfl
  | cons a l ih =>
    by_cases h : p a = true
    · simp only [List.takeWhile_cons, h, if_true, List.length_cons, List.drop_succ_cons,
        List.dropWhile_cons, ih]
    · have h2 : p a = false := by simpa using h
      simp [List.takeWhile_cons, List.dropWhile_cons, h2]

/-! ### Branch lemmas for `lexStep` -/

theorem lexStep_nil (whole : List Char) (byte : Nat) :
    lexStep whole [] byte = (none, [], byte) := rfl

theorem lexStep_lbrace (whole cs : List Char) (byte : Nat) :
    lexStep whole ('{' :: cs) byte =
      (some (.ok { origin := ['{'], offset := byte, kind := .leftBrace }), cs, byte + 1) := rfl

theorem lexStep_rbrace (whole cs : List Char) (byte : Nat) :
    lexStep whole ('}' :: cs) byte =
      (some (.ok { origin := ['}'], offset := byte, kind := .rightBrace }), cs, byte + 1) := rfl

theorem lexStep_identStart (whole cs : List Char) (byte : Nat) {c : Char}
    (h : isIdentStart c = true) :
    lexStep whole (c :: cs) byte =
      (some (.ok { origin := c :: cs.takeWhile isIdentCont, offset := byte,
                   kind := if c :: cs.takeWhile isIdentCont = "task".toList
                           then .task else .ident }),
       cs.dropWhile isIdentCont, byte + utf8Len (c :: cs.takeWhile isIdentCont)) := by
  have hc : isIdentCont c = true := identStart_identCont h
  have h1 : c ≠ '{' := identStart_ne_lbrace h
  have h2 : c ≠ '}' := identStart_ne_rbrace h
  have htw : List.takeWhile isIdentCont (c :: cs) = c :: cs.takeWhile isIdentCont := by
    rw [List.takeWhile_cons, if_pos hc]
  have e1 : cs.drop ((c :: cs.takeWhile isIdentCont).length - 1) = cs.dropWhile isIdentCont := by
    simp only [List.length_cons, Nat.add_sub_cancel]
    exact drop_length_takeWhile isIdentCont cs
  have e2 : byte + c.utf8Size + (utf8Len (c :: cs.takeWhile isIdentCont) - c.utf8Size) =
      byte + utf8Len (c :: cs.takeWhile isIdentCont) := by
    simp only [utf8Len]
    omega
  simp only [lexStep, h1, h2, h, if_true, ite_false, if_false, htw, e1, e2]

theorem lexStep_ws (whole cs : List Char) (byte : Nat) {c : Char}
    (hws : rustIsWhitespace c = true) :
    lexStep whole (c :: cs) byte = lexStep whole cs (byte + c.utf8Size) := by
  have h1 : c ≠ '{' := ws_ne_lbrace hws
  have h2 : c ≠ '}' := ws_ne_rbrace hws
  have h3 : isIdentStart c = false := ws_not_identStart hws
  simp only [lexStep, h1, h2, h3, hws, if_true, ite_false, if_false, Bool.false_eq_true]

theorem lexStep_err (whole cs : List Char) (byte : Nat) {c : Char}
    (h1 : c ≠ '{') (h2 : c ≠ '}') (h3 : isIdentStart c = false)
    (h4 : rustIsWhitespace c = false) :
    lexStep whole (c :: cs) byte =
      (some (.error { src := whole, token := c, errOffset := byte,
                      errLen := c.utf8Size }), cs, byte + c.utf8Size) := by
  simp only [lexStep, h1, h2, h3, h4, ite_false, if_false, Bool.false_eq_true,
    Nat.add_sub_cancel, Nat.add_sub_cancel_left]

/-! ### `Lexer.next` and iteration lemmas -/

theorem next_eq_of_lexStep (l : Lexer) {r : Option (Except LexError Token)}
    {rest2 : List Char} {byte2 : Nat}
    (h : lexStep l.whole l.rest l.byte = (r, rest2, byte2)) :
    l.next = (r, { whole := l.whole, rest := rest2, byte := byte2 }) := by
  simp [Lexer.next, h]

theorem lexStep_none_rest (whole : List Char) :
    ∀ (rest : List Char) (byte : Nat) {r2 : List Char} {b2 : Nat},
      lexStep whole rest byte = (none, r2, b2) → r2 = [] := by
  intro rest
  induction rest with
  | nil =>
    intro byte r2 b2 h
    simp only [lexStep, Prod.mk.injEq] at h
    exact h.2.1.symm
  | cons c cs ih =>
    intro byte r2 b2 h
    simp only [lexStep] at h
    split_ifs at h
    all_goals first
      | exact ih _ h
      | exact absurd h (by simp)

theorem lexStep_some_length (whole : List Char) :
    ∀ (rest : List Char) (byte : Nat) {r : Except LexError Token}
      {r2 : List Char} {b2 : Nat},
      lexStep whole rest byte = (some r, r2, b2) → r2.length < rest.length := by
  intro rest
  induction rest with
  | nil =>
    intro byte r r2 b2 h
    exact absurd h (by simp [lexStep])
  | cons c cs ih =>
    intro byte r r2 b2 h
    simp only [lexStep] at h
    split_ifs at h
    all_goals first
      | exact Nat.lt_succ_of_lt (ih _ h)
      | (simp only [Prod.mk.injEq] at h
         obtain ⟨-, h2, -⟩ := h
         subst h2
         simp only [List.length_drop, List.length_cons]
         omega)

theorem lexStep_some_utf8Len (whole : List Char) :
    ∀ (rest : List Char) (byte : Nat) {r : Except LexError Token}
      {r2 : List Char} {b2 : Nat},
      lexStep whole rest byte = (some r, r2, b2) → utf8Len r2 < utf8Len rest := by
  intro rest
  induction rest with
  | nil =>
    intro byte r r2 b2 h
    exact absurd h (by simp [lexStep])
  | cons c cs ih =>
    intro byte r r2 b2 h
    have hpos := Char.utf8Size_pos c
    simp only [lexStep] at h
    split_ifs at h
    all_goals first
      | (have hrec := ih _ h
         simp only [utf8Len]
         omega)
      | (simp only [Prod.mk.injEq] at h
         obtain ⟨-, h2, -⟩ := h
         subst h2
         have hd := utf8Len_drop_le ((List.takeWhile isIdentCont (c :: cs)).length - 1) cs
         simp only [utf8Len]
         omega)

theorem next_some_length {l : Lexer} {r : Except LexError Token} {l2 : Lexer}
    (h : l.next = (some r, l2)) : l2.rest.length < l.rest.length := by
  rcases hstep : lexStep l.whole l.rest l.byte with ⟨r0, rest2, b2⟩
  rw [next_eq_of_lexStep l hstep] at h
  simp only [Prod.mk.injEq] at h
  obtain ⟨hr, hl2⟩ := h
  subst hr
  subst hl2
  exact lexStep_some_length l.whole l.rest l.byte hstep

theorem lexItemsFuel_rest_nil (m : Nat) (l : Lexer) (h : l.rest = []) :
    lexItemsFuel m l = [] := by
  cases m with
  | zero => rfl
  | succ n =>
    obtain ⟨w, rest, b⟩ := l
    simp only at h
    subst h
    rfl

theorem lexItemsFuel_congr :
    ∀ (n m : Nat) (l : Lexer), l.rest.length ≤ n → l.rest.length ≤ m →
      lexItemsFuel n l = lexItemsFuel m l := by
  intro n
  induction n with
  | zero =>
    intro m l hn _
    have hnil : l.rest = [] := List.eq_nil_of_length_eq_zero (Nat.le_zero.mp hn)
    rw [lexItemsFuel_rest_nil m l hnil]
    rfl
  | succ n ih =>
    intro m l hn hm
    cases m with
    | zero =>
      have hnil : l.rest = [] := List.eq_nil_of_length_eq_zero (Nat.le_zero.mp hm)
      rw [lexItemsFuel_rest_nil (n + 1) l hnil]
      rfl
    | succ m =>
      rcases hl : l.next with ⟨r, l2⟩
      cases r with
      | none => simp [lexItemsFuel, hl]
      | some r =>
        have hlen : l2.rest.length < l.rest.length := next_some_length hl
        simp only [lexItemsFuel, hl]
        rw [ih m l2 (by omega) (by omega)]

theorem lexItems_of_none {l : Lexer} {l2 : Lexer} (h : l.next = (none, l2)) :
    lexItems l = [] := by
  unfold lexItems
  cases hn : l.rest.length with
  | zero => rfl
  | succ n => simp [lexItemsFuel, h]

theorem lexItems_of_some {l : Lexer} {r : Except LexError Token} {l2 : Lexer}
    (h : l.next = (some r, l2)) : lexItems l = r :: lexItems l2 := by
  have hlt : l2.rest.length < l.rest.length := next_some_length h
  unfold lexItems
  cases hn : l.rest.length with
  | zero => omega
  | succ n =>
    simp only [lexItemsFuel, h]
    rw [lexItemsFuel_congr n l2.rest.length l2 (by omega) (Nat.le_refl _)]

theorem next_rest_nil (l : Lexer) (h : l.rest = []) : l.next = (none, l) := by
  obtain ⟨w, rest, b⟩ := l
  simp only at h
  subst h
  rfl

theorem inv_snoc {whole pre rest : List Char} {c : Char} {byte : Nat}
    (hw : whole = pre ++ c :: rest) (hb : utf8Len pre = byte) :
    whole = (pre ++ [c]) ++ rest ∧ utf8Len (pre ++ [c]) = byte + c.utf8Size := by
  constructor
  · rw [hw]
    simp
  · rw [utf8Len_append, hb]
    simp [utf8Len]

theorem bool_eq_false_of_not {b : Bool} (h : ¬ b = true) : b = false := by
  cases b
  · rfl
  · exact absurd rfl h

theorem lexStep_inv (whole : List Char) :
    ∀ (rest : List Char) (byte : Nat) (pre : List Char),
      whole = pre ++ rest → utf8Len pre = byte →
      ∀ {r : Option (Except LexError Token)} {rest2 : List Char} {byte2 : Nat},
        lexStep whole rest byte = (r, rest2, byte2) →
        (∃ pre2, whole = pre2 ++ rest2 ∧ utf8Len pre2 = byte2) ∧ byte ≤ byte2 := by
  intro rest
  induction rest with
  | nil =>
    intro byte pre hw hb r rest2 byte2 h
    simp only [lexStep, Prod.mk.injEq] at h
    obtain ⟨-, h2, h3⟩ := h
    subst h2
    subst h3
    exact ⟨⟨pre, hw, hb⟩, Nat.le_refl _⟩
  | cons c cs ih =>
    intro byte pre hw hb r rest2 byte2 h
    by_cases hb1 : c = '{'
    · subst hb1
      rw [lexStep_lbrace] at h
      simp only [Prod.mk.injEq] at h
      obtain ⟨-, h2, h3⟩ := h
      subst h2
      subst h3
      obtain ⟨e1, e2⟩ := inv_snoc hw hb
      exact ⟨⟨pre ++ ['{'], e1, e2⟩, Nat.le_succ _⟩
    by_cases hb2 : c = '}'
    · subst hb2
      rw [lexStep_rbrace] at h
      simp only [Prod.mk.injEq] at h
      obtain ⟨-, h2, h3⟩ := h
      subst h2
      subst h3
      obtain ⟨e1, e2⟩ := inv_snoc hw hb
      exact ⟨⟨pre ++ ['}'], e1, e2⟩, Nat.le_succ _⟩
    by_cases hb3 : isIdentStart c = true
    · rw [lexStep_identStart whole cs byte hb3] at h
      simp only [Prod.mk.injEq] at h
      obtain ⟨-, h2, h3⟩ := h
      subst h2
      subst h3
      refine ⟨⟨pre ++ (c :: cs.takeWhile isIdentCont), ?_, ?_⟩, Nat.le_add_right _ _⟩
      · rw [hw]
        conv_lhs => rw [← List.takeWhile_append_dropWhile isIdentCont cs]
        simp
      · rw [utf8Len_append, hb]
    by_cases hb5 : rustIsWhitespace c = true
    · rw [lexStep_ws whole cs byte hb5] at h
      obtain ⟨e1, e2⟩ := inv_snoc hw hb
      obtain ⟨hinv, hle⟩ := ih (byte + c.utf8Size) (pre ++ [c]) e1 e2 h
      exact ⟨hinv, Nat.le_trans (Nat.le_add_right _ _) hle⟩
    · rw [lexStep_err whole cs byte hb1 hb2 (bool_eq_false_of_not hb3)
        (bool_eq_false_of_not hb5)] at h
      simp only [Prod.mk.injEq] at h
      obtain ⟨-, h2, h3⟩ := h
      subst h2
      subst h3
      obtain ⟨e1, e2⟩ := inv_snoc hw hb
      exact ⟨⟨pre ++ [c], e1, e2⟩, Nat.le_add_right _ _⟩

theorem lexStep_ok_slice (whole : List Char) :
    ∀ (rest : List Char) (byte : Nat) (pre : List Char),
      whole = pre ++ rest → utf8Len pre = byte →
      ∀ {t : Token} {rest2 : List Char} {byte2 : Nat},
        lexStep whole rest byte = (some (.ok t), rest2, byte2) →
        t.origin ≠ [] ∧ ∃ p q, whole = p ++ t.origin ++ q ∧ utf8Len p = t.offset := by
  intro rest
  induction rest with
  | nil =>
    intro byte pre hw hb t rest2 byte2 h
    exact absurd h (by simp [lexStep])
  | cons c cs ih =>
    intro byte pre hw hb t rest2 byte2 h
    by_cases hb1 : c = '{'
    · subst hb1
      rw [lexStep_lbrace] at h
      simp only [Prod.mk.injEq, Option.some.injEq, Except.ok.injEq] at h
      obtain ⟨h1, -, -⟩ := h
      subst h1
      exact ⟨by simp, pre, cs, by simpa using hw, hb⟩
    by_cases hb2 : c = '}'
    · subst hb2
      rw [lexStep_rbrace] at h
      simp only [Prod.mk.injEq, Option.some.injEq, Except.ok.injEq] at h
      obtain ⟨h1, -, -⟩ := h
      subst h1
      exact ⟨by simp, pre, cs, by simpa using hw, hb⟩
    by_cases hb3 : isIdentStart c = true
    · rw [lexStep_identStart whole cs byte hb3] at h
      simp only [Prod.mk.injEq, Option.some.injEq, Except.ok.injEq] at h
      obtain ⟨h1, -, -⟩ := h
      subst h1
      refine ⟨by simp, pre, cs.dropWhile isIdentCont, ?_, hb⟩
      rw [hw]
      conv_lhs => rw [← List.takeWhile_append_dropWhile isIdentCont cs]
      simp
    by_cases hb5 : rustIsWhitespace c = true
    · rw [lexStep_ws whole cs byte hb5] at h
      obtain ⟨e1, e2⟩ := inv_snoc hw hb
      exact ih (byte + c.utf8Size) (pre ++ [c]) e1 e2 h
    · rw [lexStep_err whole cs byte hb1 hb2 (bool_eq_false_of_not hb3)
        (bool_eq_false_of_not hb5)] at h
      exact absurd h (by simp)

theorem lexStep_error_span (whole : List Char) :
    ∀ (rest : List Char) (byte : Nat) {e : LexError} {rest2 : List Char} {byte2 : Nat},
      lexStep whole rest byte = (some (.error e), rest2, byte2) →
      byte2 = e.errOffset + e.errLen ∧ e.errLen = e.token.utf8Size ∧ e.src = whole := by
  intro rest
  induction rest with
  | nil =>
    intro byte e rest2 byte2 h
    exact absurd h (by simp [lexStep])
  | cons c cs ih =>
    intro byte e rest2 byte2 h
    by_cases hb1 : c = '{'
    · subst hb1
      rw [lexStep_lbrace] at h
      exact absurd h (by simp)
    by_cases hb2 : c = '}'
    · subst hb2
      rw [lexStep_rbrace] at h
      exact absurd h (by simp)
    by_cases hb3 : isIdentStart c = true
    · rw [lexStep_identStart whole cs byte hb3] at h
      exact absurd h (by simp)
    by_cases hb5 : rustIsWhitespace c = true
    · rw [lexStep_ws whole cs byte hb5] at h
      exact ih _ h
    · rw [lexStep_err whole cs byte hb1 hb2 (bool_eq_false_of_not hb3)
        (bool_eq_false_of_not hb5)] at h
      simp only [Prod.mk.injEq, Option.some.injEq, Except.error.injEq] at h
      obtain ⟨h1, -, h3⟩ := h
      subst h1
      subst h3
      exact ⟨rfl, rfl, rfl⟩

theorem lexStep_all_ws (whole : List Char) :
    ∀ (rest : List Char) (byte : Nat), (∀ x ∈ rest, rustIsWhitespace x = true) →
      lexStep whole rest byte = (none, [], byte + utf8Len rest) := by
  intro rest
  induction rest with
  | nil =>
    intro byte _
    simp [lexStep, utf8Len]
  | cons c cs ih =>
    intro byte h
    rw [lexStep_ws whole cs byte (h c (by simp)),
      ih (byte + c.utf8Size) (fun x hx => h x (by simp [hx]))]
    simp only [Prod.mk.injEq, utf8Len, true_and]
    omega

theorem lexItems_length_le : ∀ (n : Nat) (l : Lexer), l.rest.length ≤ n →
    (lexItems l).length ≤ l.rest.length := by
  intro n
  induction n with
  | zero =>
    intro l h
    have hnil : l.rest = [] := List.eq_nil_of_length_eq_zero (Nat.le_zero.mp h)
    rw [lexItems_of_none (next_rest_nil l hnil)]
    simp
  | succ n ih =>
    intro l h
    rcases hl : l.next with ⟨r, l2⟩
    cases r with
    | none =>
      rw [lexItems_of_none hl]
      simp
    | some r =>
      rw [lexItems_of_some hl]
      have h2 := next_some_length hl
      have h3 := ih l2 (by omega)
      simp only [List.length_cons]
      omega

theorem utf8Len_eq_length_of_alnum :
    ∀ (l : List Char), (∀ x ∈ l, isAsciiAlnum x = true) → utf8Len l = l.length := by
  intro l
  induction l with
  | nil => intro _; rfl
  | cons c cs ih =>
    intro h
    simp only [utf8Len, List.length_cons, alnum_utf8Size (h c (by simp)),
      ih (fun x hx => h x (by simp [hx]))]
    omega

/-! ### Claims -/

/-- C1: For every non-empty ASCII alphanumeric string `s` that is not
`"task"` and does not start with a digit, the input `"task " ++ s ++ " {}"`
lexes without error to exactly the kinds `[Task, Ident, LeftBrace,
RightBrace]`, the `Ident` token's text being `s` itself at offset 5. -/
theorem spec_c1_task_ident_braces (c : Char) (t : List Char)
    (halnum : ∀ x ∈ c :: t, isAsciiAlnum x = true)
    (hdigit : isDigitChar c = false)
    (htask : c :: t ≠ "task".toList) :
    lexItems (Lexer.new ("task ".toList ++ (c :: t) ++ " {}".toList)) =
      [.ok { origin := "task".toList, offset := 0, kind := .task },
       .ok { origin := c :: t, offset := 5, kind := .ident },
       .ok { origin := ['{'], offset := 6 + (c :: t).length, kind := .leftBrace },
       .ok { origin := ['}'], offset := 7 + (c :: t).length, kind := .rightBrace }] := by
  have hstart : isIdentStart c = true :=
    alnum_not_digit_identStart (halnum c (by simp)) hdigit
  have hcontAll : ∀ x ∈ t, isIdentCont x = true :=
    fun x hx => alnum_identCont (halnum x (by simp [hx]))
  have hlen : utf8Len (c :: t) = (c :: t).length :=
    utf8Len_eq_length_of_alnum (c :: t) halnum
  have htke : List.takeWhile isIdentCont (t ++ " {}".toList) = t := by
    rw [takeWhile_append_of_all _ hcontAll,
      show List.takeWhile isIdentCont " {}".toList = [] from rfl, List.append_nil]
  have hdrop : List.dropWhile isIdentCont (t ++ " {}".toList) = " {}".toList := by
    rw [dropWhile_append_of_all _ hcontAll]
    rfl
  have h1 : Lexer.next (Lexer.new ("task ".toList ++ (c :: t) ++ " {}".toList)) =
      (some (.ok { origin := "task".toList, offset := 0, kind := .task }),
       { whole := "task ".toList ++ (c :: t) ++ " {}".toList,
         rest := ' ' :: ((c :: t) ++ " {}".toList), byte := 4 }) := by
    apply next_eq_of_lexStep
    rfl
  have h2 : Lexer.next
      { whole := "task ".toList ++ (c :: t) ++ " {}".toList,
        rest := ' ' :: ((c :: t) ++ " {}".toList), byte := 4 } =
      (some (.ok { origin := c :: t, offset := 5, kind := .ident }),
       { whole := "task ".toList ++ (c :: t) ++ " {}".toList,
         rest := " {}".toList, byte := 5 + utf8Len (c :: t) }) := by
    apply next_eq_of_lexStep
    rw [show (Lexer.mk ("task ".toList ++ (c :: t) ++ " {}".toList)
          (' ' :: ((c :: t) ++ " {}".toList)) 4).rest =
        ' ' :: ((c :: t) ++ " {}".toList) from rfl]
    rw [lexStep_ws _ _ _ (by decide), List.cons_append,
      lexStep_identStart _ (t ++ " {}".toList) _ hstart, htke, hdrop, if_neg htask]
    rfl
  have h3 : Lexer.next
      { whole := "task ".toList ++ (c :: t) ++ " {}".toList,
        rest := " {}".toList, byte := 5 + utf8Len (c :: t) } =
      (some (.ok { origin := ['{'], offset := 5 + utf8Len (c :: t) + 1,
                   kind := .leftBrace }),
       { whole := "task ".toList ++ (c :: t) ++ " {}".toList,
         rest := ['}'], byte := 5 + utf8Len (c :: t) + 2 }) := by
    apply next_eq_of_lexStep
    rw [show (Lexer.mk ("task ".toList ++ (c :: t) ++ " {}".toList) (" {}".toList)
          (5 + utf8Len (c :: t))).rest = ' ' :: ['{', '}'] from rfl]
    rw [lexStep_ws _ _ _ (by decide), lexStep_lbrace]
    rfl
  have h4 : Lexer.next
      { whole := "task ".toList ++ (c :: t) ++ " {}".toList,
        rest := ['}'], byte := 5 + utf8Len (c :: t) + 2 } =
      (some (.ok { origin := ['}'], offset := 5 + utf8Len (c :: t) + 2,
                   kind := .rightBrace }),
       { whole := "task ".toList ++ (c :: t) ++ " {}".toList,
         rest := [], byte := 5 + utf8Len (c :: t) + 3 }) := by
    apply next_eq_of_lexStep
    rw [lexStep_rbrace]
  have h5 : Lexer.next
      { whole := "task ".toList ++ (c :: t) ++ " {}".toList,
        rest := [], byte := 5 + utf8Len (c :: t) + 3 } =
      (none, { whole := "task ".toList ++ (c :: t) ++ " {}".toList,
               rest := [], byte := 5 + utf8Len (c :: t) + 3 }) :=
    next_rest_nil _ rfl
  rw [lexItems_of_some h1, lexItems_of_some h2, lexItems_of_some h3,
    lexItems_of_some h4, lexItems_of_none h5]
  simp only [hlen, List.cons.injEq, Except.ok.injEq, Token.mk.injEq, and_true, true_and]
  omega

/-- C1 witness: `"task foo {}"` lexes to `[Task, Ident, LeftBrace,
RightBrace]` with the `Ident` token's text `"foo"`. -/
theorem spec_c1_witness :
    (∀ x ∈ 'f' :: "oo".toList, isAsciiAlnum x = true) ∧
    isDigitChar 'f' = false ∧
    lexItems (Lexer.new ("task ".toList ++ ('f' :: "oo".toList) ++ " {}".toList)) =
      [.ok { origin := "task".toList, offset := 0, kind := .task },
       .ok { origin := 'f' :: "oo".toList, offset := 5, kind := .ident },
       .ok { origin := ['{'], offset := 6 + ('f' :: "oo".toList).length, kind := .leftBrace },
       .ok { origin := ['}'], offset := 7 + ('f' :: "oo".toList).length, kind := .rightBrace }] :=
  ⟨by decide, by decide,
   spec_c1_task_ident_braces 'f' "oo".toList (by decide) (by decide) (by decide)⟩

/-- C2: Maximal munch.  Whenever the next unconsumed character is an ASCII
letter or underscore, the emitted token's text is the longest run of
`[a-zA-Z_0-9]` characters starting at that character (`takeWhile` from the
start, not from the character after it), and the cursor advances by exactly
that run's byte length. -/
theorem spec_c2_maximal_munch (l : Lexer) (c : Char) (cs : List Char)
    (hrest : l.rest = c :: cs) (h : isIdentStart c = true) :
    ∃ t : Token,
      l.next.1 = some (.ok t) ∧
      t.origin = (c :: cs).takeWhile isIdentCont ∧
      l.next.2.byte = l.byte + utf8Len t.origin ∧
      l.next.2.rest = (c :: cs).dropWhile isIdentCont := by
  have hc : isIdentCont c = true := identStart_identCont h
  have htw : (c :: cs).takeWhile isIdentCont = c :: cs.takeWhile isIdentCont := by
    rw [List.takeWhile_cons, if_pos hc]
  have hdw : (c :: cs).dropWhile isIdentCont = cs.dropWhile isIdentCont := by
    rw [List.dropWhile_cons, if_pos hc]
  have hs : lexStep l.whole l.rest l.byte =
      (some (.ok { origin := c :: cs.takeWhile isIdentCont, offset := l.byte,
                   kind := if c :: cs.takeWhile isIdentCont = "task".toList
                           then .task else .ident }),
       cs.dropWhile isIdentCont, l.byte + utf8Len (c :: cs.takeWhile isIdentCont)) := by
    rw [hrest]
    exact lexStep_identStart l.whole cs l.byte h
  have hn := next_eq_of_lexStep l hs
  refine ⟨{ origin := c :: cs.takeWhile isIdentCont, offset := l.byte,
            kind := if c :: cs.takeWhile isIdentCont = "task".toList
                    then .task else .ident }, ?_, ?_, ?_, ?_⟩
  · rw [hn]
  · rw [htw]
  · simp [hn]
  · simp [hn, hdw]

/-- C2 witness: the state over input `"foo3"`; additionally `"foo3"`
lexes to a single identifier token, never `foo` then `3`. -/
theorem spec_c2_witness :
    (∃ t : Token,
      (Lexer.new "foo3".toList).next.1 = some (.ok t) ∧
      t.origin = ('f' :: "oo3".toList).takeWhile isIdentCont ∧
      (Lexer.new "foo3".toList).next.2.byte =
        (Lexer.new "foo3".toList).byte + utf8Len t.origin ∧
      (Lexer.new "foo3".toList).next.2.rest =
        ('f' :: "oo3".toList).dropWhile isIdentCont) ∧
    lexItems (Lexer.new "foo3".toList) =
      [.ok { origin := "foo3".toList, offset := 0, kind := .ident }] :=
  ⟨spec_c2_maximal_munch (Lexer.new "foo3".toList) 'f' "oo3".toList rfl (by decide),
   by rfl⟩

/-- C3: Keyword disambiguation.  For every identifier-shaped run, the token
kind is `Task` iff the matched literal equals `"task"`, and `Ident`
otherwise; the text is the full literal and the offset is the byte position
of its first byte (the cursor before the run). -/
theorem spec_c3_keyword_disambiguation (l : Lexer) (c : Char) (cs : List Char)
    (hrest : l.rest = c :: cs) (h : isIdentStart c = true) :
    ∃ t : Token,
      l.next.1 = some (.ok t) ∧
      t.origin = (c :: cs).takeWhile isIdentCont ∧
      t.offset = l.byte ∧
      (t.kind = .task ↔ t.origin = "task".toList) ∧
      (t.origin ≠ "task".toList → t.kind = .ident) := by
  have hc : isIdentCont c = true := identStart_identCont h
  have htw : (c :: cs).takeWhile isIdentCont = c :: cs.takeWhile isIdentCont := by
    rw [List.takeWhile_cons, if_pos hc]
  have hs : lexStep l.whole l.rest l.byte =
      (some (.ok { origin := c :: cs.takeWhile isIdentCont, offset := l.byte,
                   kind := if c :: cs.takeWhile isIdentCont = "task".toList
                           then .task else .ident }),
       cs.dropWhile isIdentCont, l.byte + utf8Len (c :: cs.takeWhile isIdentCont)) := by
    rw [hrest]
    exact lexStep_identStart l.whole cs l.byte h
  have hn := next_eq_of_lexStep l hs
  refine ⟨{ origin := c :: cs.takeWhile isIdentCont, offset := l.byte,
            kind := if c :: cs.takeWhile isIdentCont = "task".toList
                    then .task else .ident }, ?_, ?_, ?_, ?_, ?_⟩
  · rw [hn]
  · rw [htw]
  · rfl
  · by_cases hk : c :: cs.takeWhile isIdentCont = "task".toList
    · simp [hk]
    · simp [hk]
  · intro hne
    have hne2 : c :: List.takeWhile isIdentCont cs ≠ "task".toList := hne
    show (if c :: List.takeWhile isIdentCont cs = "task".toList
          then TokenKind.task else TokenKind.ident) = TokenKind.ident
    rw [if_neg hne2]

/-- C3 witness: over input `"task"` the matched literal is `"task"` and the
kind is `Task`. -/
theorem spec_c3_witness :
    ∃ t : Token,
      (Lexer.new "task".toList).next.1 = some (.ok t) ∧
      t.origin = ('t' :: "ask".toList).takeWhile isIdentCont ∧
      t.offset = (Lexer.new "task".toList).byte ∧
      (t.kind = .task ↔ t.origin = "task".toList) ∧
      (t.origin ≠ "task".toList → t.kind = .ident) :=
  spec_c3_keyword_disambiguation (Lexer.new "task".toList) 't' "ask".toList rfl (by decide)

/-- C4: Error locality.  When the next unconsumed character is not
whitespace, not a brace, and not an identifier start, `next` returns a
lexical error carrying exactly that character, with span offset the
character's byte position in the whole input (the cursor, which by the
state invariant is the byte position of `c` in `whole`) and span length its
UTF-8 byte length, consuming exactly that character. -/
theorem spec_c4_error_locality (l : Lexer) (c : Char) (cs : List Char)
    (hinv : LexInv l) (hrest : l.rest = c :: cs)
    (hws : rustIsWhitespace c = false) (hlb : c ≠ '{') (hrb : c ≠ '}')
    (hid : isIdentStart c = false) :
    l.next = (some (.error { src := l.whole, token := c, errOffset := l.byte,
                             errLen := c.utf8Size }),
              { whole := l.whole, rest := cs, byte := l.byte + c.utf8Size }) ∧
    ∃ pre, l.whole = pre ++ c :: cs ∧ utf8Len pre = l.byte := by
  constructor
  · apply next_eq_of_lexStep
    rw [hrest]
    exact lexStep_err l.whole cs l.byte hlb hrb hid hws
  · obtain ⟨pre, hw, hb⟩ := hinv
    rw [hrest] at hw
    exact ⟨pre, hw, hb⟩

/-- C4 witness: input `"  #"` produces exactly one error, with offset 2,
span length 1, offending character `#`; the theorem is applied at the
reachable state where the two spaces have been skipped. -/
theorem spec_c4_witness :
    lexItems (Lexer.new "  #".toList) =
      [.error { src := "  #".toList, token := '#', errOffset := 2, errLen := 1 }] ∧
    ((Lexer.mk "  #".toList ['#'] 2).next =
      (some (.error { src := "  #".toList, token := '#', errOffset := 2, errLen := 1 }),
       Lexer.mk "  #".toList [] 3) ∧
     ∃ pre, "  #".toList = pre ++ '#' :: [] ∧ utf8Len pre = 2) :=
  ⟨by rfl,
   spec_c4_error_locality (Lexer.mk "  #".toList ['#'] 2) '#' []
     ⟨[' ', ' '], rfl, rfl⟩ rfl (by decide) (by decide) (by decide) (by decide)⟩

/-- C5: No sticky error state.  Whenever `next` returns a lexical error,
the cursor afterwards is exactly one character (its UTF-8 byte length) past
the offending character (`errOffset + errLen`), and iterating reports the
error exactly once and then continues scanning from that very state. -/
theorem spec_c5_no_sticky_error (l l2 : Lexer) (e : LexError)
    (h : l.next = (some (.error e), l2)) :
    l2.byte = e.errOffset + e.errLen ∧ e.errLen = e.token.utf8Size ∧
    l2.whole = l.whole ∧ lexItems l = .error e :: lexItems l2 := by
  rcases hstep : lexStep l.whole l.rest l.byte with ⟨r, rest2, byte2⟩
  have hn := next_eq_of_lexStep l hstep
  rw [hn] at h
  simp only [Prod.mk.injEq] at h
  obtain ⟨hr, hl2⟩ := h
  subst hr
  subst hl2
  obtain ⟨s1, s2, -⟩ := lexStep_error_span l.whole l.rest l.byte hstep
  exact ⟨s1, s2, rfl, lexItems_of_some hn⟩

/-- C5 witness: over input `"#"`. -/
theorem spec_c5_witness :
    (Lexer.mk ['#'] [] 1).byte = 0 + 1 ∧ (1 : Nat) = Char.utf8Size '#' ∧
    (Lexer.mk ['#'] [] 1).whole = (Lexer.new ['#']).whole ∧
    lexItems (Lexer.new ['#']) =
      .error { src := ['#'], token := '#', errOffset := 0, errLen := 1 } ::
        lexItems (Lexer.mk ['#'] [] 1) :=
  spec_c5_no_sticky_error (Lexer.new ['#']) (Lexer.mk ['#'] [] 1)
    { src := ['#'], token := '#', errOffset := 0, errLen := 1 } (by rfl)

/-- C6: Lexer state invariant.  `whole[cursor..] = remaining` holds at
construction and is preserved by every call to `next`; the cursor never
decreases and `whole` is never modified. -/
theorem spec_c6_state_invariant (s : List Char) (l : Lexer) (h : LexInv l) :
    LexInv (Lexer.new s) ∧ LexInv l.next.2 ∧ l.byte ≤ l.next.2.byte ∧
    l.next.2.whole = l.whole := by
  refine ⟨⟨[], rfl, rfl⟩, ?_⟩
  obtain ⟨pre, hw, hb⟩ := h
  rcases hstep : lexStep l.whole l.rest l.byte with ⟨r, rest2, byte2⟩
  have hn := next_eq_of_lexStep l hstep
  obtain ⟨⟨pre2, hw2, hb2⟩, hle⟩ := lexStep_inv l.whole l.rest l.byte pre hw hb hstep
  rw [hn]
  exact ⟨⟨pre2, hw2, hb2⟩, hle, rfl⟩

/-- C6 witness. -/
theorem spec_c6_witness :
    LexInv (Lexer.new ['a']) ∧ LexInv (Lexer.new ['b']).next.2 ∧
    (Lexer.new ['b']).byte ≤ (Lexer.new ['b']).next.2.byte ∧
    (Lexer.new ['b']).next.2.whole = (Lexer.new ['b']).whole :=
  spec_c6_state_invariant ['a'] (Lexer.new ['b']) ⟨[], rfl, rfl⟩

/-- C7: Token slice invariant.  Every token produced by `next` from a
reachable state has non-empty text, and that text is the contiguous slice
of the whole input starting at the token's offset. -/
theorem spec_c7_token_slice (l : Lexer) (t : Token) (h : LexInv l)
    (ht : l.next.1 = some (.ok t)) :
    t.origin ≠ [] ∧ ∃ p q, l.whole = p ++ t.origin ++ q ∧ utf8Len p = t.offset := by
  obtain ⟨pre, hw, hb⟩ := h
  rcases hstep : lexStep l.whole l.rest l.byte with ⟨r, rest2, byte2⟩
  have hn := next_eq_of_lexStep l hstep
  rw [hn] at ht
  have hr : r = some (.ok t) := ht
  subst hr
  exact lexStep_ok_slice l.whole l.rest l.byte pre hw hb hstep

/-- C7 witness: over input `"ab"`. -/
theorem spec_c7_witness :
    ("ab".toList ≠ ([] : List Char)) ∧
    ∃ p q, "ab".toList = p ++ "ab".toList ++ q ∧ utf8Len p = 0 :=
  spec_c7_token_slice (Lexer.new "ab".toList)
    { origin := "ab".toList, offset := 0, kind := .ident } ⟨[], rfl, rfl⟩ (by rfl)

/-- C8: Idempotence of exhaustion.  Once `next` returns the end-of-input
signal, every subsequent call also returns it and leaves the state
unchanged. -/
theorem spec_c8_exhaustion_idempotent (l l2 : Lexer) (h : l.next = (none, l2)) :
    l2.next = (none, l2) := by
  rcases hstep : lexStep l.whole l.rest l.byte with ⟨r, rest2, byte2⟩
  have hn := next_eq_of_lexStep l hstep
  rw [hn] at h
  simp only [Prod.mk.injEq] at h
  obtain ⟨hr, hl2⟩ := h
  subst hr
  have hnil : rest2 = [] := lexStep_none_rest l.whole l.rest l.byte hstep
  subst hl2
  exact next_rest_nil _ hnil

/-- C8 witness: over the whitespace-only input `" "`. -/
theorem spec_c8_witness :
    (Lexer.mk [' '] [] 1).next = (none, Lexer.mk [' '] [] 1) :=
  spec_c8_exhaustion_idempotent (Lexer.new [' ']) (Lexer.mk [' '] [] 1) (by rfl)

/-- C9: Whitespace never produces an item.  A whitespace character at the
head of the unconsumed input is consumed (cursor advanced by its UTF-8 byte
length) without emitting anything, and any input consisting only of
whitespace — including the empty input — yields the empty item sequence. -/
theorem spec_c9_whitespace (s : List Char) (l : Lexer) (c : Char) (cs : List Char)
    (hs : ∀ x ∈ s, rustIsWhitespace x = true)
    (hrest : l.rest = c :: cs) (hc : rustIsWhitespace c = true) :
    lexItems (Lexer.new s) = [] ∧
    l.next = Lexer.next { whole := l.whole, rest := cs, byte := l.byte + c.utf8Size } := by
  constructor
  · exact lexItems_of_none (next_eq_of_lexStep (Lexer.new s) (lexStep_all_ws s s 0 hs))
  · show Lexer.next l = _
    simp only [Lexer.next, hrest]
    rw [lexStep_ws l.whole cs l.byte hc]

/-- C9 witness: the input `"\n "` (whitespace with a newline) yields no
items, and a leading space before `"{"` is consumed without emitting. -/
theorem spec_c9_witness :
    lexItems (Lexer.new ['\n', ' ']) = [] ∧
    (Lexer.new [' ', '{']).next =
      Lexer.next { whole := [' ', '{'], rest := ['{'], byte := 0 + Char.utf8Size ' ' } :=
  spec_c9_whitespace ['\n', ' '] (Lexer.new [' ', '{']) ' ' ['{'] (by decide) rfl (by decide)

/-- C10: Termination.  Every yielded item strictly decreases the byte
length of the remaining input, and exhausting the iterator over an input of
`n` bytes yields at most `n` items. -/
theorem spec_c10_termination (s : List Char) (l : Lexer) (r : Except LexError Token)
    (l2 : Lexer) (h : l.next = (some r, l2)) :
    utf8Len l2.rest < utf8Len l.rest ∧ (lexItems (Lexer.new s)).length ≤ utf8Len s := by
  constructor
  · rcases hstep : lexStep l.whole l.rest l.byte with ⟨r0, rest2, byte2⟩
    have hn := next_eq_of_lexStep l hstep
    rw [hn] at h
    simp only [Prod.mk.injEq] at h
    obtain ⟨hr, hl2⟩ := h
    subst hr
    subst hl2
    exact lexStep_some_utf8Len l.whole l.rest l.byte hstep
  · calc (lexItems (Lexer.new s)).length ≤ (Lexer.new s).rest.length :=
        lexItems_length_le (Lexer.new s).rest.length (Lexer.new s) (Nat.le_refl _)
      _ ≤ utf8Len s := length_le_utf8Len s

/-- C10 witness: over input `"{"`. -/
theorem spec_c10_witness :
    utf8Len (Lexer.mk ['{'] [] 1).rest < utf8Len (Lexer.new ['{']).rest ∧
    (lexItems (Lexer.new ['{'])).length ≤ utf8Len ['{'] :=
  spec_c10_termination ['{'] (Lexer.new ['{'])
    (.ok { origin := ['{'], offset := 0, kind := .leftBrace }) (Lexer.mk ['{'] [] 1)
    (by rfl)

end Barelang
